import Mathlib

/-!
Verification of the email-vendor dashboard core against its specification.

This file gives a shallow embedding of the client-side core logic of the
repository (thread assembly in `src/frontend/src/pages/Emails.tsx`, session
display-status resolution and filter counts in
`src/frontend/src/pages/Sessions.tsx`, and the stats reductions in
`src/frontend/src/pages/Analytics.tsx`), and proves or refutes the frozen
claims about that logic.

Modelling conventions:
* JavaScript timestamp strings are embedded by their `new Date(s).getTime()`
  value: `some t` for a string parsing to epoch-milliseconds `t`, `none` for a
  missing or unparseable string (`getTime()` being `NaN`).
* JavaScript truthiness of optional numbers (`0`, `undefined` falsy) and
  optional strings (`""`, `undefined` falsy) is modelled by `numTruthy` and
  `strTruthy`.
* `Array.prototype.sort(cmp)` is modelled by `jsSort`, a stable insertion
  sort; a comparator result of `NaN` is treated as `+0` (a tie), following the
  ECMAScript `SortCompare` specification.  For consistent comparators this
  agrees with every conforming implementation (the stable sorted permutation
  is unique).
* JavaScript plain objects used as string-keyed maps are modelled as
  insertion-ordered association lists.  (The ECMAScript enumeration quirk for
  integer-like keys only affects the relative order of whole threads, which no
  claim depends on.)
* Fields of the TypeScript records that the embedded operations never read
  (address/package strings, ratings, CSS class data used only for rendering,
  etc.) are omitted from the structures.
-/

/-- Stable insertion of `x` into `l` for a JavaScript numeric comparator:
`x` is placed before the first element `y` with `cmp x y < 0` and after all
elements it ties with, which is exactly the (unique) behaviour of a stable
`Array.prototype.sort` for elements compared equal. -/
def insertSorted {α : Type} (cmp : α → α → Int) (x : α) : List α → List α
  | [] => [x]
  | y :: ys => if cmp x y < 0 then x :: y :: ys else y :: insertSorted cmp x ys

/-- Model of `Array.prototype.sort(cmp)`: stable sort by the comparator. -/
def jsSort {α : Type} (cmp : α → α → Int) (l : List α) : List α :=
  l.foldl (fun acc x => insertSorted cmp x acc) []

/-- JavaScript truthiness of an optional number field (`undefined` and `0`
are falsy). -/
def numTruthy : Option Nat → Bool
  | none => false
  | some v => v != 0

/-- JavaScript truthiness of an optional string field (`undefined` and `""`
are falsy). -/
def strTruthy : Option String → Bool
  | none => false
  | some s => s != ""

/-- JavaScript subtraction `x - y` of two `getTime()` values as used inside a
sort comparator: if either side is `NaN` (here `none`) the comparator result
is `NaN`, which ECMAScript `SortCompare` replaces by `+0`. -/
def nanSub : Option Int → Option Int → Int
  | some x, some y => x - y
  | some _, none => 0
  | none, _ => 0

/-! ## Sessions page (`src/frontend/src/pages/Sessions.tsx`) -/

/-- A `ShipmentSession` record, restricted to the fields read by the embedded
operations (`vendor_id`, `vendor_notified_at`, `vendor_replied_at`, `status`,
plus identifiers). -/
structure ShipmentSession where
  id : Nat
  email_id : Nat
  vendor_id : Option Nat
  vendor_notified_at : Option String
  vendor_replied_at : Option String
  status : String
deriving Repr, DecidableEq

/-- The record returned by `getSessionDisplayStatus` (the `icon` component
name is kept as a string). -/
structure StatusBadge where
  label : String
  classes : String
  icon : String
deriving Repr, DecidableEq

/-- Embedding of `getSessionDisplayStatus` from `Sessions.tsx` lines 231-258. -/
def getSessionDisplayStatus (session : ShipmentSession) : StatusBadge :=
  if !(numTruthy session.vendor_id) then
    { label := "Action Required"
      classes := "bg-gray-100 text-gray-700 ring-gray-600/20"
      icon := "AlertCircle" }
  else if strTruthy session.vendor_replied_at then
    { label := "Completed"
      classes := "bg-emerald-50 text-emerald-700 ring-emerald-600/20"
      icon := "CheckCircle" }
  else if strTruthy session.vendor_notified_at then
    { label := "Pending Reply"
      classes := "bg-blue-50 text-blue-700 ring-blue-700/10"
      icon := "Clock" }
  else
    { label := "Assigned"
      classes := "bg-blue-50 text-blue-700 ring-blue-700/10"
      icon := "Truck" }

/-- The four display statuses named by spec section 4.2. -/
inductive DisplayStatus where
  | UNASSIGNED
  | REPLIED
  | PENDING_REPLY
  | ASSIGNED
deriving Repr, DecidableEq

/-- Modelled from the spec (section 4.2): the full, mutually exclusive
condition of each StatusResolver rule, with rule 1 = `UNASSIGNED`,
rule 2 = `REPLIED`, rule 3 = `PENDING_REPLY`, rule 4 = `ASSIGNED`. -/
def specRule (s : ShipmentSession) : DisplayStatus → Bool
  | .UNASSIGNED => !(numTruthy s.vendor_id)
  | .REPLIED => numTruthy s.vendor_id && strTruthy s.vendor_replied_at
  | .PENDING_REPLY =>
      numTruthy s.vendor_id && !(strTruthy s.vendor_replied_at)
        && strTruthy s.vendor_notified_at
  | .ASSIGNED =>
      numTruthy s.vendor_id && !(strTruthy s.vendor_replied_at)
        && !(strTruthy s.vendor_notified_at)

/-- The UI label the spec associates with each display status. -/
def labelOf : DisplayStatus → String
  | .UNASSIGNED => "Action Required"
  | .REPLIED => "Completed"
  | .PENDING_REPLY => "Pending Reply"
  | .ASSIGNED => "Assigned"

/-- Modelled from the spec (section 4.2): the priority-chain status resolver,
used to express the partitions the filter counts are claimed to equal. -/
def statusOf (s : ShipmentSession) : DisplayStatus :=
  if !(numTruthy s.vendor_id) then .UNASSIGNED
  else if strTruthy s.vendor_replied_at then .REPLIED
  else if strTruthy s.vendor_notified_at then .PENDING_REPLY
  else .ASSIGNED

/-- Cardinality of the partition of `l` induced by display status `d`. -/
def partCount (d : DisplayStatus) (l : List ShipmentSession) : Nat :=
  (l.filter fun s => statusOf s == d).length

/-- Embedding of `counts.all` from `Sessions.tsx` lines 269-275. -/
def counts_all (sessions : List ShipmentSession) : Nat :=
  sessions.length

/-- Embedding of `counts.unassigned` from `Sessions.tsx` lines 269-275:
`sessions.filter((s) => !s.vendor_id).length`. -/
def counts_unassigned (sessions : List ShipmentSession) : Nat :=
  (sessions.filter fun s => !(numTruthy s.vendor_id)).length

/-- Embedding of `counts.pending_reply` from `Sessions.tsx` lines 269-275:
`sessions.filter((s) => s.vendor_id && !s.vendor_replied_at).length`. -/
def counts_pending_reply (sessions : List ShipmentSession) : Nat :=
  (sessions.filter fun s =>
    numTruthy s.vendor_id && !(strTruthy s.vendor_replied_at)).length

/-- Embedding of `counts.replied` from `Sessions.tsx` lines 269-275:
`sessions.filter((s) => s.vendor_replied_at).length`. -/
def counts_replied (sessions : List ShipmentSession) : Nat :=
  (sessions.filter fun s => strTruthy s.vendor_replied_at).length

/-! ## Analytics page (`src/frontend/src/pages/Analytics.tsx`) -/

/-- Model of `Math.round` on an exact rational: round half toward positive infinity. -/
def jsRound (q : ℚ) : ℤ := ⌊q + 1 / 2⌋

/-- Embedding of `completionRate` from `Analytics.tsx` lines 88-91:
`total > 0 ? Math.round((complete / total) * 100) : 0`, computed on the
`total_shipments` / `complete_shipments` counters of the dashboard stats.
The guard means the division is only ever evaluated with a positive
denominator, so no `NaN`/`Infinity` arises. -/
def completionRate (total complete : Nat) : ℤ :=
  if 0 < total then jsRound ((complete : ℚ) / (total : ℚ) * 100) else 0

/-- Embedding of `processingRate` from `Analytics.tsx` lines 94-97, same shape on the
`total_emails` / `shipping_requests` counters. -/
def processingRate (total_emails shipping_requests : Nat) : ℤ :=
  if 0 < total_emails then
    jsRound ((shipping_requests : ℚ) / (total_emails : ℚ) * 100)
  else 0

/-- A `Vendor` record, restricted to the fields the embedded operations
read. -/
structure Vendor where
  id : Nat
  name : String
  email : String
  active : Bool
deriving Repr, DecidableEq

/-- The record produced per vendor by `vendorStats` in `Analytics.tsx`
lines 104-114 (`{ ...vendor, totalSessions, rate }`). -/
structure VendorStat where
  vendor : Vendor
  totalSessions : Nat
  rate : ℤ
deriving Repr, DecidableEq

/-- The body of the `vendors.map` in `Analytics.tsx` lines 105-113:
`vSessions` filters by strict equality `s.vendor_id === vendor.id`. -/
def mkVendorStat (sessions : List ShipmentSession) (vendor : Vendor) :
    VendorStat :=
  let vSessions := sessions.filter fun s => s.vendor_id == some vendor.id
  let replies := vSessions.filter fun s => strTruthy s.vendor_replied_at
  let rate : ℤ :=
    if 0 < vSessions.length then
      jsRound ((replies.length : ℚ) / (vSessions.length : ℚ) * 100)
    else 0
  { vendor := vendor, totalSessions := vSessions.length, rate := rate }

/-- The comparator `(a, b) => b.totalSessions - a.totalSessions` of
`Analytics.tsx` line 114. -/
def vendorStatCmp (a b : VendorStat) : Int :=
  (b.totalSessions : Int) - (a.totalSessions : Int)

/-- Embedding of `vendorStats` from `Analytics.tsx` lines 104-114. -/
def vendorStats (vendors : List Vendor) (sessions : List ShipmentSession) :
    List VendorStat :=
  jsSort vendorStatCmp (vendors.map (mkVendorStat sessions))

/-! ## Emails page (`src/frontend/src/pages/Emails.tsx`) -/

/-- An email id: real records carry numbers; the thread assembler builds
synthetic entries whose `id` is a string (`uniqueReplyId as any`). -/
inductive EId where
  | num (n : Nat)
  | str (s : String)
deriving Repr, DecidableEq

/-- A nested operator reply (`{ id, body, sent_at }`); the `id` is kept as a
string since the optimistic-update path stores string ids (`temp_...`).
`sent_at` is an embedded timestamp. -/
structure EmailReply where
  id : String
  body : String
  sent_at : Option Int
deriving Repr, DecidableEq

/-- An `Email` record, restricted to the fields read or written by the
thread assembler.  `originalEmailId` embeds the `__originalEmailId`
back-reference attached to synthetic entries (absent on real records). -/
structure Email where
  id : EId
  message_id : String
  thread_id : Option String
  sender_email : String
  sender_name : Option String
  subject : Option String
  body : Option String
  category : String
  is_shipping_request : Bool
  status : String
  received_at : Option Int
  created_at : Option Int
  updated_at : Option Int
  is_reply : Bool
  is_forwarded : Bool
  responses : List EmailReply
  originalEmailId : Option EId
deriving Repr, DecidableEq

/-- The whitespace set of `String.prototype.trim` restricted to the ASCII
characters that can occur in the data. -/
def isWS (c : Char) : Bool :=
  c == ' ' || c == '\t' || c == '\n' || c == '\r'

/-- Model of `String.prototype.trim`. -/
def jsTrim (s : String) : String :=
  ⟨((s.data.dropWhile isWS).reverse.dropWhile isWS).reverse⟩

/-- The grouping key of an email, `Emails.tsx` lines 346-349:
`email.thread_id && email.thread_id.trim() !== "" ? email.thread_id :
 ("single_" + email.message_id)`. -/
def keyOf (e : Email) : String :=
  match e.thread_id with
  | some t => if t != "" && jsTrim t != "" then t else "single_" ++ e.message_id
  | none => "single_" ++ e.message_id

/-- Decimal digit characters of `n`, most significant first, with explicit
structural fuel (any fuel above `n` gives the true decimal form).  This is
the number-to-string conversion a JavaScript template literal performs on a
nonnegative integer id. -/
def natCharsGo : Nat → Nat → List Char
  | 0, _ => []
  | fuel + 1, n =>
      if n < 10 then [Nat.digitChar n]
      else natCharsGo fuel (n / 10) ++ [Nat.digitChar (n % 10)]

/-- Decimal digit characters of `n`. -/
def natChars (n : Nat) : List Char := natCharsGo (n + 1) n

/-- Decimal string of `n` (JavaScript `${n}` for a nonnegative integer). -/
def natString (n : Nat) : String := ⟨natChars n⟩

/-- JavaScript template-literal stringification of an id. -/
def eidString : EId → String
  | .num n => natString n
  | .str s => s

/-- Embedding of `uniqueReplyId` from `Emails.tsx` line 359:
`` `reply_${email.id}_${response.id}_${idx}` ``. -/
def mkReplyId (pid : EId) (rid : String) (idx : Nat) : String :=
  "reply_" ++ eidString pid ++ "_" ++ rid ++ "_" ++ natString idx

/-- Embedding of `replyAsEmail` from `Emails.tsx` lines 361-379: the synthetic timeline
entry built for reply `r` (at index `idx`) of parent email `e`. -/
def mkReplyEmail (e : Email) (r : EmailReply) (idx : Nat) : Email :=
  { id := .str (mkReplyId e.id r.id idx)
    message_id := "reply_" ++ r.id
    thread_id := e.thread_id
    sender_email := "support@yourcompany.com"
    sender_name := some "You"
    subject := e.subject
    body := some r.body
    category := e.category
    is_shipping_request := false
    status := "completed"
    received_at := r.sent_at
    created_at := r.sent_at
    updated_at := r.sent_at
    is_reply := true
    is_forwarded := false
    responses := []
    originalEmailId := some e.id }

/-- The synthetic entries produced by the `email.responses.forEach` loop of
`Emails.tsx` lines 356-383, with the running index starting at `i`. -/
def synthsGo (e : Email) (i : Nat) : List EmailReply → List Email
  | [] => []
  | r :: rs => mkReplyEmail e r i :: synthsGo e (i + 1) rs

/-- All entries pushed to the thread bucket while processing email `e`: the
email itself followed by one synthetic entry per nested reply. -/
def entriesOf (e : Email) : List Email :=
  e :: synthsGo e 0 e.responses

/-- Append entries `es` to the bucket of key `k` (creating the bucket at the
end on first use), the behaviour of `threadMap[key].push(...)` on a plain
object used as a map. -/
def bucketAdd : List (String × List Email) → String → List Email →
    List (String × List Email)
  | [], k, es => [(k, es)]
  | (k1, es1) :: m, k, es =>
      if k = k1 then (k1, es1 ++ es) :: m else (k1, es1) :: bucketAdd m k es

/-- Look up the bucket of key `k` (empty when absent). -/
def lookupB (m : List (String × List Email)) (k : String) : List Email :=
  match m with
  | [] => []
  | (k1, es1) :: m => if k = k1 then es1 else lookupB m k

/-- The `threadMap` construction of `Emails.tsx` lines 340-384. -/
def buildMap (emails : List Email) : List (String × List Email) :=
  emails.foldl (fun m e => bucketAdd m (keyOf e) (entriesOf e)) []

/-- The within-thread comparator of `Emails.tsx` lines 389-393:
`(a, b) => new Date(b.received_at).getTime() - new Date(a.received_at).getTime()`
(descending, newest first). -/
def emailCmp (a b : Email) : Int := nanSub b.received_at a.received_at

/-- An assembled thread (`EmailThread`). -/
structure EmailThread where
  threadId : String
  emails : List Email
  latestEmail : Email
  firstEmail : Email
deriving Repr, DecidableEq

/-- Placeholder record used only to express `sortedMessages[0]` /
`sortedMessages[length - 1]` totally; buckets are provably nonempty, so it
is never produced by `threads`. -/
def emptyEmail : Email :=
  { id := .num 0, message_id := "", thread_id := none, sender_email := ""
    sender_name := none, subject := none, body := none, category := ""
    is_shipping_request := false, status := "", received_at := none
    created_at := none, updated_at := none, is_reply := false
    is_forwarded := false, responses := [], originalEmailId := none }

/-- Embedding of `Emails.tsx` lines 386-404: sort a bucket descending by timestamp and
record the newest (`sortedMessages[0]`) and oldest
(`sortedMessages[length - 1]`) entry. -/
def mkThread (k : String) (es : List Email) : EmailThread :=
  let sorted := jsSort emailCmp es
  { threadId := k
    emails := sorted
    latestEmail := sorted.headD emptyEmail
    firstEmail := (sorted.reverse).headD emptyEmail }

/-- The across-thread comparator of `Emails.tsx` lines 408-412. -/
def threadCmp (a b : EmailThread) : Int :=
  nanSub b.latestEmail.received_at a.latestEmail.received_at

/-- The full thread assembly of `Emails.tsx` lines 339-413. -/
def threads (emails : List Email) : List EmailThread :=
  jsSort threadCmp ((buildMap emails).map fun p => mkThread p.1 p.2)

/-- The real thread id of an entry: its `thread_id` when present and
non-blank (the condition under which `keyOf` uses it), `none` otherwise. -/
def realTid (e : Email) : Option String :=
  match e.thread_id with
  | some t => if t != "" && jsTrim t != "" then some t else none
  | none => none

/-- Whether an id is a real (numeric) email id, as opposed to the string id
of a synthetic reply entry. -/
def isNumId : EId → Bool
  | .num _ => true
  | .str _ => false

/-- The keys of the association-list model of `threadMap`. -/
def keysOf (m : List (String × List Email)) : List String :=
  m.map Prod.fst

/-! ## Concrete records used by witnesses and counterexamples -/

/-- A session assigned to a vendor but with neither milestone timestamp. -/
def sAssigned : ShipmentSession := ⟨1, 1, some 1, none, none, "created"⟩

/-- A session with a vendor reply recorded but no vendor assigned. -/
def sOrphan : ShipmentSession :=
  ⟨2, 2, none, none, some "2024-01-02T00:00:00Z", "created"⟩

/-- A session with no vendor assigned. -/
def sUnassigned : ShipmentSession := ⟨3, 3, none, none, none, "created"⟩

/-- A session whose vendor was notified and has not replied. -/
def sNotified : ShipmentSession :=
  ⟨4, 4, some 2, some "2024-01-01T00:00:00Z", none, "created"⟩

/-- A session whose vendor was notified and replied. -/
def sReplied : ShipmentSession :=
  ⟨5, 5, some 2, some "2024-01-01T00:00:00Z", some "2024-01-02T00:00:00Z", "created"⟩

/-- A vendor record. -/
def vAcme : Vendor := ⟨7, "Acme Logistics", "acme@vendors.test", true⟩

/-- An email whose real `thread_id` has the literal form of a synthetic key. -/
def eKeyA : Email := { emptyEmail with
  id := .num 10
  message_id := "mA"
  thread_id := some "single_mB"
  received_at := some 100, created_at := some 100, updated_at := some 100 }

/-- An email with no `thread_id`, whose synthetic key is `single_mB`. -/
def eKeyB : Email := { emptyEmail with
  id := .num 11
  message_id := "mB"
  thread_id := none
  received_at := some 50, created_at := some 50, updated_at := some 50 }

/-- Thread `t8`, parseable timestamp 5. -/
def eT1 : Email := { emptyEmail with
  id := .num 1, message_id := "m1", thread_id := some "t8", received_at := some 5 }

/-- Thread `t8`, missing/unparseable timestamp. -/
def eBad : Email := { emptyEmail with
  id := .num 2, message_id := "m2", thread_id := some "t8", received_at := none }

/-- Thread `t8`, parseable timestamp 3. -/
def eT2 : Email := { emptyEmail with
  id := .num 3, message_id := "m3", thread_id := some "t8", received_at := some 3 }

/-- An email with two nested operator replies. -/
def eResp : Email := { emptyEmail with
  id := .num 20
  message_id := "mR"
  thread_id := some "tR"
  received_at := some 40
  responses := [⟨"r1", "hello", some 60⟩, ⟨"r2", "bye", some 70⟩] }

/-- First of two distinct emails sharing id `0` (allowed by the assembler
input contract), each with one reply of id `0`. -/
def dupA : Email := { emptyEmail with
  id := .num 0, message_id := "dupA", thread_id := some "td", received_at := some 1
  responses := [⟨"0", "x", some 2⟩] }

/-- Second of the two duplicate-id emails. -/
def dupB : Email := { emptyEmail with
  id := .num 0, message_id := "dupB", thread_id := some "td", received_at := some 1
  responses := [⟨"0", "y", some 2⟩] }

/-- Thread `t4`, timestamp 100 (the 10:00 entry of the spec scenario). -/
def eS1 : Email := { emptyEmail with
  id := .num 31, message_id := "n1", thread_id := some "t4", received_at := some 100 }

/-- Thread `t4`, timestamp 105 (the 10:05 entry). -/
def eS2 : Email := { emptyEmail with
  id := .num 32, message_id := "n2", thread_id := some "t4", received_at := some 105 }

/-- Thread `t4`, timestamp 50 (the 09:50 entry). -/
def eS3 : Email := { emptyEmail with
  id := .num 33, message_id := "n3", thread_id := some "t4", received_at := some 50 }

/-! ## Generic facts about the sort model -/

theorem mem_insertSorted {α : Type} (cmp : α → α → Int) (x y : α) :
    ∀ l : List α, y ∈ insertSorted cmp x l ↔ y = x ∨ y ∈ l := by
  intro l
  induction l with
  | nil => simp [insertSorted]
  | cons z zs ih =>
    by_cases h : cmp x z < 0
    · simp [insertSorted, h]
    · simp [insertSorted, h, ih]
      tauto

theorem insertSorted_perm {α : Type} (cmp : α → α → Int) (x : α) (l : List α) :
    List.Perm (insertSorted cmp x l) (x :: l) := by
  induction l with
  | nil => simp [insertSorted]
  | cons z zs ih =>
    by_cases h : cmp x z < 0
    · simp [insertSorted, h]
    · simp only [insertSorted, h, if_false]
      exact ((ih.cons z).trans (List.Perm.swap x z zs))

theorem sortGo_perm {α : Type} (cmp : α → α → Int) :
    ∀ (l acc : List α),
      List.Perm (l.foldl (fun a x => insertSorted cmp x a) acc) (acc ++ l) := by
  intro l
  induction l with
  | nil => intro acc; simp
  | cons x xs ih =>
    intro acc
    have h1 := ih (insertSorted cmp x acc)
    have h2 := (insertSorted_perm cmp x acc).append_right xs
    exact (h1.trans h2).trans List.perm_middle.symm

theorem jsSort_perm {α : Type} (cmp : α → α → Int) (l : List α) :
    List.Perm (jsSort cmp l) l := by
  simpa [jsSort] using sortGo_perm cmp l []

theorem mem_jsSort {α : Type} (cmp : α → α → Int) (x : α) (l : List α) :
    x ∈ jsSort cmp l ↔ x ∈ l :=
  (jsSort_perm cmp l).mem_iff

theorem insertSorted_pairwise {α : Type} (cmp : α → α → Int) (key : α → Int)
    (x : α) (l : List α)
    (hx : ∀ y ∈ l, cmp x y = key y - key x)
    (hl : l.Pairwise fun a b => key b ≤ key a) :
    (insertSorted cmp x l).Pairwise fun a b => key b ≤ key a := by
  induction l with
  | nil => simp [insertSorted]
  | cons z zs ih =>
    have hxz := hx z (by simp)
    rcases List.pairwise_cons.1 hl with ⟨hz, hzs⟩
    by_cases h : cmp x z < 0
    · have hlt : key z < key x := by omega
      simp only [insertSorted, h, if_true]
      refine List.pairwise_cons.2 ⟨?_, hl⟩
      intro y hy
      rcases List.mem_cons.1 hy with rfl | hy
      · omega
      · have := hz y hy; omega
    · have hge : key x ≤ key z := by omega
      simp only [insertSorted, h, if_false]
      refine List.pairwise_cons.2 ⟨?_, ?_⟩
      · intro y hy
        rcases (mem_insertSorted cmp x y zs).1 hy with rfl | hy
        · exact hge
        · exact hz y hy
      · exact ih (fun y hy => hx y (by simp [hy])) hzs

theorem sortGo_pairwise {α : Type} (cmp : α → α → Int) (key : α → Int) :
    ∀ (l acc : List α),
      (∀ x, (x ∈ l ∨ x ∈ acc) → ∀ y, (y ∈ l ∨ y ∈ acc) →
        cmp x y = key y - key x) →
      acc.Pairwise (fun a b => key b ≤ key a) →
      (l.foldl (fun a x => insertSorted cmp x a) acc).Pairwise
        fun a b => key b ≤ key a := by
  intro l
  induction l with
  | nil => intro acc _ hacc; exact hacc
  | cons x xs ih =>
    intro acc h hacc
    refine ih (insertSorted cmp x acc) ?_ ?_
    · intro a ha b hb
      have ha2 : a ∈ x :: xs ∨ a ∈ acc := by
        rcases ha with ha | ha
        · exact Or.inl (by simp [ha])
        · rcases (mem_insertSorted cmp x a acc).1 ha with rfl | ha
          · exact Or.inl (by simp)
          · exact Or.inr ha
      have hb2 : b ∈ x :: xs ∨ b ∈ acc := by
        rcases hb with hb | hb
        · exact Or.inl (by simp [hb])
        · rcases (mem_insertSorted cmp x b acc).1 hb with rfl | hb
          · exact Or.inl (by simp)
          · exact Or.inr hb
      exact h a ha2 b hb2
    · refine insertSorted_pairwise cmp key x acc ?_ hacc
      intro y hy
      exact h x (Or.inl (by simp)) y (Or.inr hy)

theorem jsSort_pairwise {α : Type} (cmp : α → α → Int) (key : α → Int)
    (l : List α)
    (h : ∀ x ∈ l, ∀ y ∈ l, cmp x y = key y - key x) :
    (jsSort cmp l).Pairwise fun a b => key b ≤ key a := by
  refine sortGo_pairwise cmp key l [] ?_ (by simp)
  intro x hx y hy
  rcases hx with hx | hx
  · rcases hy with hy | hy
    · exact h x hx y hy
    · simp at hy
  · simp at hx

theorem insertSorted_filter_ne {α : Type} (cmp : α → α → Int) (key : α → Int)
    (n : Int) (x : α) (l : List α) (hxn : key x ≠ n) :
    (insertSorted cmp x l).filter (fun y => key y == n) =
      l.filter fun y => key y == n := by
  induction l with
  | nil => simp [insertSorted, List.filter_cons, hxn]
  | cons z zs ih =>
    by_cases h : cmp x z < 0
    · simp [insertSorted, h, List.filter_cons, hxn]
    · simp only [insertSorted, h, if_false]
      by_cases hz : key z = n <;> simp [List.filter_cons, hz, ih]

theorem filter_key_eq_nil {α : Type} (key : α → Int) (n : Int) (l : List α)
    (h : ∀ z ∈ l, key z < n) : l.filter (fun y => key y == n) = [] := by
  induction l with
  | nil => rfl
  | cons z zs ih =>
    have hz := h z (by simp)
    have hzn : key z ≠ n := by omega
    simp only [List.filter_cons]
    have hb : (key z == n) = false := by simp [hzn]
    rw [hb]
    simpa using ih fun y hy => h y (by simp [hy])

theorem insertSorted_filter_eq {α : Type} (cmp : α → α → Int) (key : α → Int)
    (n : Int) (x : α) (l : List α) (hxn : key x = n)
    (hx : ∀ y ∈ l, cmp x y = key y - key x)
    (hl : l.Pairwise fun a b => key b ≤ key a) :
    (insertSorted cmp x l).filter (fun y => key y == n) =
      (l.filter fun y => key y == n) ++ [x] := by
  induction l with
  | nil => simp [insertSorted, List.filter_cons, hxn]
  | cons z zs ih =>
    have hxz := hx z (by simp)
    rcases List.pairwise_cons.1 hl with ⟨hz, hzs⟩
    by_cases h : cmp x z < 0
    · have hlt : key z < key x := by omega
      have hnil : (z :: zs).filter (fun y => key y == n) = [] := by
        refine filter_key_eq_nil key n _ ?_
        intro y hy
        rcases List.mem_cons.1 hy with rfl | hy
        · omega
        · have := hz y hy; omega
      simp only [insertSorted, h, if_true]
      rw [hnil]
      simp [List.filter_cons, hxn, hnil]
    · simp only [insertSorted, h, if_false]
      have ih2 := ih (fun y hy => hx y (by simp [hy])) hzs
      by_cases hzn : key z = n <;> simp [List.filter_cons, hzn, ih2]

theorem sortGo_filter {α : Type} (cmp : α → α → Int) (key : α → Int)
    (n : Int) :
    ∀ (l acc : List α),
      (∀ x, (x ∈ l ∨ x ∈ acc) → ∀ y, (y ∈ l ∨ y ∈ acc) →
        cmp x y = key y - key x) →
      acc.Pairwise (fun a b => key b ≤ key a) →
      (l.foldl (fun a x => insertSorted cmp x a) acc).filter
          (fun y => key y == n) =
        (acc.filter fun y => key y == n) ++ (l.filter fun y => key y == n) := by
  intro l
  induction l with
  | nil => intro acc _ _; simp
  | cons x xs ih =>
    intro acc h hacc
    have hxacc : ∀ y ∈ acc, cmp x y = key y - key x := fun y hy =>
      h x (Or.inl (by simp)) y (Or.inr hy)
    have hrec := ih (insertSorted cmp x acc)
      (by
        intro a ha b hb
        have ha2 : a ∈ x :: xs ∨ a ∈ acc := by
          rcases ha with ha | ha
          · exact Or.inl (by simp [ha])
          · rcases (mem_insertSorted cmp x a acc).1 ha with rfl | ha
            · exact Or.inl (by simp)
            · exact Or.inr ha
        have hb2 : b ∈ x :: xs ∨ b ∈ acc := by
          rcases hb with hb | hb
          · exact Or.inl (by simp [hb])
          · rcases (mem_insertSorted cmp x b acc).1 hb with rfl | hb
            · exact Or.inl (by simp)
            · exact Or.inr hb
        exact h a ha2 b hb2)
      (insertSorted_pairwise cmp key x acc hxacc hacc)
    show (xs.foldl (fun a y => insertSorted cmp y a)
        (insertSorted cmp x acc)).filter (fun y => key y == n) = _
    rw [hrec]
    by_cases hxn : key x = n
    · rw [insertSorted_filter_eq cmp key n x acc hxn hxacc hacc]
      simp [List.filter_cons, hxn]
    · rw [insertSorted_filter_ne cmp key n x acc hxn]
      simp [List.filter_cons, hxn]

theorem jsSort_filter {α : Type} (cmp : α → α → Int) (key : α → Int)
    (n : Int) (l : List α)
    (h : ∀ x ∈ l, ∀ y ∈ l, cmp x y = key y - key x) :
    (jsSort cmp l).filter (fun y => key y == n) =
      l.filter fun y => key y == n := by
  have := sortGo_filter cmp key n l []
    (by
      intro x hx y hy
      rcases hx with hx | hx
      · rcases hy with hy | hy
        · exact h x hx y hy
        · simp at hy
      · simp at hx)
    (by simp)
  simpa [jsSort] using this

theorem pairwise_headD {α : Type} (R : α → α → Prop) (l : List α) (d : α)
    (hl : l.Pairwise R) : ∀ z ∈ l, z = l.headD d ∨ R (l.headD d) z := by
  cases l with
  | nil => simp
  | cons x xs =>
    intro z hz
    rcases List.mem_cons.1 hz with rfl | hz
    · exact Or.inl rfl
    · exact Or.inr ((List.pairwise_cons.1 hl).1 z hz)

/-! ## Claim C2: the status resolver -/

/-- C2 (confirmed): the status resolver is total on sessions: for every
session there is exactly one display status whose spec rule (section 4.2,
rules 1-4 with their full mutually-exclusive conditions) holds, and
`getSessionDisplayStatus` returns exactly that status, rendered through its
UI label. -/
theorem resolver_rules_exact (s : ShipmentSession) :
    ∃ d : DisplayStatus, specRule s d = true ∧
      (getSessionDisplayStatus s).label = labelOf d ∧
      ∀ d2 : DisplayStatus, specRule s d2 = true → d2 = d := by
  by_cases hv : numTruthy s.vendor_id = true
  · by_cases hr : strTruthy s.vendor_replied_at = true
    · refine ⟨.REPLIED, by simp [specRule, hv, hr],
        by simp [getSessionDisplayStatus, hv, hr, labelOf], ?_⟩
      intro d2 h2
      cases d2 <;> simp [specRule, hv, hr] at h2 ⊢
    · by_cases hn : strTruthy s.vendor_notified_at = true
      · refine ⟨.PENDING_REPLY, by simp [specRule, hv, hr, hn],
          by simp [getSessionDisplayStatus, hv, hr, hn, labelOf], ?_⟩
        intro d2 h2
        cases d2 <;> simp [specRule, hv, hr, hn] at h2 ⊢
      · refine ⟨.ASSIGNED, by simp [specRule, hv, hr, hn],
          by simp [getSessionDisplayStatus, hv, hr, hn, labelOf], ?_⟩
        intro d2 h2
        cases d2 <;> simp [specRule, hv, hr, hn] at h2 ⊢
  · refine ⟨.UNASSIGNED, by simp [specRule, hv],
      by simp [getSessionDisplayStatus, hv, labelOf], ?_⟩
    intro d2 h2
    cases d2 <;> simp [specRule, hv] at h2 ⊢

/-- Witness for C2 at the concrete session `sUnassigned`. -/
theorem resolver_rules_exact_witness :
    (getSessionDisplayStatus sUnassigned).label =
      labelOf DisplayStatus.UNASSIGNED := by
  obtain ⟨d, _, hlab, huniq⟩ := resolver_rules_exact sUnassigned
  rw [← huniq DisplayStatus.UNASSIGNED (by decide)] at hlab
  exact hlab

/-! ## Claim C1: filter-tab counts -/

/-- C1 (counterexample): the four-tab counts computed by the Sessions page do
not equal the cardinalities of the spec partitions.  A session assigned but
never notified is counted by the `pending_reply` tab although its partition
is `ASSIGNED`, and a session with a reply timestamp but no vendor is counted
by the `replied` tab although its partition is `UNASSIGNED`. -/
theorem counts_mismatch_concrete :
    counts_pending_reply [sAssigned] = 1 ∧
    partCount DisplayStatus.PENDING_REPLY [sAssigned] = 0 ∧
    counts_replied [sOrphan] = 1 ∧
    partCount DisplayStatus.REPLIED [sOrphan] = 0 := by decide

/-- C1 (amended): `all` and `unassigned` match the spec partitions;
`pending_reply` counts the union of the `PENDING_REPLY` and `ASSIGNED`
partitions (the code never consults `vendor_notified_at`); `replied` counts
every session with a reply timestamp regardless of `vendor_id` (the
`REPLIED` partition plus any unassigned-but-replied sessions). -/
theorem counts_match_code_partitions (l : List ShipmentSession) :
    counts_all l = l.length ∧
    counts_unassigned l = partCount DisplayStatus.UNASSIGNED l ∧
    counts_pending_reply l =
      partCount DisplayStatus.PENDING_REPLY l +
        partCount DisplayStatus.ASSIGNED l ∧
    counts_replied l = partCount DisplayStatus.REPLIED l +
      (l.filter fun s =>
        !(numTruthy s.vendor_id) && strTruthy s.vendor_replied_at).length := by
  refine ⟨rfl, ?_, ?_, ?_⟩
  · induction l with
    | nil => rfl
    | cons s t ih =>
      cases hv : numTruthy s.vendor_id <;>
        cases hr : strTruthy s.vendor_replied_at <;>
        cases hn : strTruthy s.vendor_notified_at <;>
        simp [counts_unassigned, partCount, statusOf, hv, hr, hn,
          List.filter_cons] at ih ⊢ <;> omega
  · induction l with
    | nil => rfl
    | cons s t ih =>
      cases hv : numTruthy s.vendor_id <;>
        cases hr : strTruthy s.vendor_replied_at <;>
        cases hn : strTruthy s.vendor_notified_at <;>
        simp [counts_pending_reply, partCount, statusOf, hv, hr, hn,
          List.filter_cons] at ih ⊢ <;> omega
  · induction l with
    | nil => rfl
    | cons s t ih =>
      cases hv : numTruthy s.vendor_id <;>
        cases hr : strTruthy s.vendor_replied_at <;>
        cases hn : strTruthy s.vendor_notified_at <;>
        simp [counts_replied, partCount, statusOf, hv, hr, hn,
          List.filter_cons] at ih ⊢ <;> omega

/-! ## Claim C10: the three named tabs partition the collection -/

/-- C10 (confirmed): whenever every replied session has a vendor, the
`unassigned`, `pending_reply` and `replied` counts sum to `all`. -/
theorem counts_sum_partition (l : List ShipmentSession)
    (h : ∀ s ∈ l, strTruthy s.vendor_replied_at = true →
      numTruthy s.vendor_id = true) :
    counts_unassigned l + counts_pending_reply l + counts_replied l =
      counts_all l := by
  induction l with
  | nil => rfl
  | cons s t ih =>
    have hs := h s (List.mem_cons_self s t)
    have ih2 := ih fun x hx => h x (List.mem_cons_of_mem s hx)
    cases hv : numTruthy s.vendor_id <;>
      cases hr : strTruthy s.vendor_replied_at <;>
      simp [counts_all, counts_unassigned, counts_pending_reply,
        counts_replied, List.filter_cons, hv, hr] at hs ih2 ⊢ <;> omega

/-- Witness for C10 on a concrete mixed collection. -/
theorem counts_sum_partition_witness :
    counts_unassigned [sUnassigned, sAssigned, sNotified, sReplied] +
      counts_pending_reply [sUnassigned, sAssigned, sNotified, sReplied] +
      counts_replied [sUnassigned, sAssigned, sNotified, sReplied] =
      counts_all [sUnassigned, sAssigned, sNotified, sReplied] :=
  counts_sum_partition [sUnassigned, sAssigned, sNotified, sReplied]
    (by decide)

/-! ## Claim C6: guarded rate computations -/

/-- C6 (confirmed): `completionRate` (and `processingRate`) equal the rounded
percentage `round(100 * complete / total)` whenever `total > 0` and are `0`
when `total = 0` (the guard prevents the division, so no `NaN`/`Infinity` is
produced); a collection in which every item is complete yields `100`. -/
theorem rates_guarded_division (t c : Nat) :
    completionRate 0 c = 0 ∧ processingRate 0 c = 0 ∧
    (0 < t → completionRate t c = jsRound (100 * (c : ℚ) / (t : ℚ))) ∧
    (0 < t → processingRate t c = jsRound (100 * (c : ℚ) / (t : ℚ))) ∧
    (0 < t → completionRate t t = 100) := by
  refine ⟨by simp [completionRate], by simp [processingRate], ?_, ?_, ?_⟩
  · intro h
    have harg : (c : ℚ) / (t : ℚ) * 100 = 100 * (c : ℚ) / (t : ℚ) := by ring
    simp only [completionRate, if_pos h, harg]
  · intro h
    have harg : (c : ℚ) / (t : ℚ) * 100 = 100 * (c : ℚ) / (t : ℚ) := by ring
    simp only [processingRate, if_pos h, harg]
  · intro h
    have ht : (t : ℚ) ≠ 0 := ne_of_gt (by exact_mod_cast h)
    simp only [completionRate, if_pos h, jsRound, div_self ht, one_mul]
    norm_num

/-- Witness for C6 at `total = 3`. -/
theorem rates_guarded_division_witness :
    completionRate 0 2 = 0 ∧ completionRate 3 3 = 100 :=
  ⟨(rates_guarded_division 3 2).1,
    (rates_guarded_division 3 2).2.2.2.2 (by decide)⟩

/-! ## Claim C7: per-vendor statistics -/

/-- C7 (counterexample): `vendorStats` returns one result per vendor entry of
the input list, not one per distinct vendor: passing the same vendor twice
yields two results although there is one distinct vendor. -/
theorem vendor_stats_duplicate_vendor :
    (vendorStats [vAcme, vAcme] []).length = 2 ∧
    ([vAcme, vAcme].dedup).length = 1 := by decide

/-- C7 (amended): `vendorStats` returns exactly one result per vendor entry
passed in (so one per distinct vendor whenever the input list has no
duplicates), each reporting `totalSessions` as the number of sessions whose
`vendor_id` strictly equals the id of that vendor and `rate` as
`round(100 * replied / total)` (`0` when `total = 0`); the result is the
input-order list of these records stably sorted descending by
`totalSessions`, so equal `totalSessions` values preserve the input order of
the vendors. -/
theorem vendor_stats_correct (vendors : List Vendor)
    (sessions : List ShipmentSession) :
    (vendorStats vendors sessions).length = vendors.length ∧
    List.Perm (vendorStats vendors sessions)
      (vendors.map (mkVendorStat sessions)) ∧
    (∀ v ∈ vendors,
      mkVendorStat sessions v ∈ vendorStats vendors sessions ∧
      (mkVendorStat sessions v).totalSessions =
        (sessions.filter fun s => s.vendor_id == some v.id).length ∧
      ((sessions.filter fun s => s.vendor_id == some v.id).length = 0 →
        (mkVendorStat sessions v).rate = 0) ∧
      (0 < (sessions.filter fun s => s.vendor_id == some v.id).length →
        (mkVendorStat sessions v).rate =
          jsRound (100 *
            (((sessions.filter fun s => s.vendor_id == some v.id).filter
                fun s => strTruthy s.vendor_replied_at).length : ℚ) /
            ((sessions.filter fun s => s.vendor_id == some v.id).length : ℚ)))) ∧
    (vendorStats vendors sessions).Pairwise
      (fun a b => b.totalSessions ≤ a.totalSessions) ∧
    (∀ n : Int,
      (vendorStats vendors sessions).filter
          (fun st => (st.totalSessions : Int) == n) =
        (vendors.map (mkVendorStat sessions)).filter
          fun st => (st.totalSessions : Int) == n) := by
  have hcmp : ∀ x y : VendorStat,
      vendorStatCmp x y = (y.totalSessions : Int) - (x.totalSessions : Int) :=
    fun x y => rfl
  have hperm : List.Perm (vendorStats vendors sessions)
      (vendors.map (mkVendorStat sessions)) :=
    jsSort_perm vendorStatCmp _
  refine ⟨?_, hperm, ?_, ?_, ?_⟩
  · rw [hperm.length_eq, List.length_map]
  · intro v hv
    refine ⟨?_, rfl, ?_, ?_⟩
    · exact (mem_jsSort vendorStatCmp _ _).2 (List.mem_map_of_mem _ hv)
    · intro h0
      simp [mkVendorStat, h0]
    · intro hpos
      have harg :
          (((sessions.filter fun s => s.vendor_id == some v.id).filter
              fun s => strTruthy s.vendor_replied_at).length : ℚ) /
            (((sessions.filter fun s => s.vendor_id == some v.id)).length : ℚ)
            * 100 =
          100 * (((sessions.filter fun s => s.vendor_id == some v.id).filter
              fun s => strTruthy s.vendor_replied_at).length : ℚ) /
            (((sessions.filter fun s => s.vendor_id == some v.id)).length : ℚ) := by
        ring
      simp only [mkVendorStat, hpos, if_pos, harg]
  · have hpw := jsSort_pairwise vendorStatCmp
      (fun st => (st.totalSessions : Int))
      (vendors.map (mkVendorStat sessions))
      (fun x _ y _ => hcmp x y)
    refine hpw.imp ?_
    intro a b hab
    simp only at hab
    exact_mod_cast hab
  · intro n
    exact jsSort_filter vendorStatCmp (fun st => (st.totalSessions : Int)) n
      (vendors.map (mkVendorStat sessions)) (fun x _ y _ => hcmp x y)

/-- Witness for C7 with one vendor and no sessions. -/
theorem vendor_stats_correct_witness :
    (vendorStats [vAcme] []).length = 1 ∧ (mkVendorStat [] vAcme).rate = 0 := by
  obtain ⟨h1, _, h3, _, _⟩ := vendor_stats_correct [vAcme] []
  obtain ⟨_, _, hz, _⟩ := h3 vAcme (by decide)
  exact ⟨by simpa using h1, hz (by decide)⟩

/-! ## Facts about the thread-map construction -/

theorem lookupB_bucketAdd (m : List (String × List Email)) (k1 : String)
    (es : List Email) (k : String) :
    lookupB (bucketAdd m k1 es) k =
      if k = k1 then lookupB m k ++ es else lookupB m k := by
  induction m with
  | nil => by_cases h : k = k1 <;> simp [bucketAdd, lookupB, h]
  | cons p m ih =>
    obtain ⟨k2, es2⟩ := p
    by_cases h12 : k1 = k2
    · subst h12
      by_cases hk : k = k1 <;> simp [bucketAdd, lookupB, hk]
    · by_cases hk : k = k2
      · subst hk
        have hne : ¬(k = k1) := fun h => h12 h.symm
        simp [bucketAdd, lookupB, h12, hne]
      · simp [bucketAdd, lookupB, h12, hk, ih]

theorem lookupB_foldl (l : List Email) :
    ∀ (m : List (String × List Email)) (k : String),
      lookupB (l.foldl (fun m e => bucketAdd m (keyOf e) (entriesOf e)) m) k =
        lookupB m k ++ (l.filter fun e => keyOf e == k).flatMap entriesOf := by
  induction l with
  | nil => intro m k; simp
  | cons e l ih =>
    intro m k
    show lookupB (l.foldl _ (bucketAdd m (keyOf e) (entriesOf e))) k = _
    rw [ih, lookupB_bucketAdd]
    by_cases hk : k = keyOf e
    · have hb : (keyOf e == k) = true := by simp [hk]
      simp [List.filter_cons, hb, hk, List.append_assoc]
    · have hb : (keyOf e == k) = false := by
        simp
        exact fun h => hk h.symm
      simp [List.filter_cons, hb, hk]

theorem lookupB_buildMap (emails : List Email) (k : String) :
    lookupB (buildMap emails) k =
      (emails.filter fun e => keyOf e == k).flatMap entriesOf := by
  simpa [buildMap] using lookupB_foldl emails [] k

theorem mem_bucket_iff (emails : List Email) (k : String) (x : Email) :
    x ∈ lookupB (buildMap emails) k ↔
      ∃ e, e ∈ emails ∧ keyOf e = k ∧ x ∈ entriesOf e := by
  rw [lookupB_buildMap]
  simp only [List.mem_flatMap, List.mem_filter, beq_iff_eq]
  tauto

theorem mem_keysOf_bucketAdd (m : List (String × List Email)) (k1 : String)
    (es : List Email) (k : String) :
    k ∈ keysOf (bucketAdd m k1 es) ↔ k ∈ keysOf m ∨ k = k1 := by
  induction m with
  | nil => simp [bucketAdd, keysOf]
  | cons p m ih =>
    obtain ⟨k2, es2⟩ := p
    by_cases h : k1 = k2
    · subst h
      simp [bucketAdd, keysOf]
      tauto
    · simp [bucketAdd, keysOf, h] at ih ⊢
      tauto

theorem nodup_keysOf_bucketAdd :
    ∀ (m : List (String × List Email)) (k1 : String) (es : List Email),
      (keysOf m).Nodup → (keysOf (bucketAdd m k1 es)).Nodup := by
  intro m
  induction m with
  | nil => intro k1 es _; simp [bucketAdd, keysOf]
  | cons p m ih =>
    intro k1 es h
    obtain ⟨k2, es2⟩ := p
    simp only [keysOf, List.map_cons, List.nodup_cons] at h
    obtain ⟨hk2, hm⟩ := h
    by_cases h12 : k1 = k2
    · subst h12
      simp only [bucketAdd, eq_self_iff_true, if_true, keysOf, List.map_cons,
        List.nodup_cons]
      exact ⟨hk2, hm⟩
    · simp only [bucketAdd, if_neg h12, keysOf, List.map_cons, List.nodup_cons]
      constructor
      · have hmem := mem_keysOf_bucketAdd m k1 es k2
        intro hc
        rcases hmem.1 hc with hc2 | hc2
        · exact hk2 hc2
        · exact h12 hc2.symm
      · exact ih k1 es hm

theorem nodup_keysOf_buildMap (emails : List Email) :
    (keysOf (buildMap emails)).Nodup := by
  have aux : ∀ (l : List Email) (m : List (String × List Email)),
      (keysOf m).Nodup →
      (keysOf (l.foldl (fun m e => bucketAdd m (keyOf e) (entriesOf e)) m)).Nodup := by
    intro l
    induction l with
    | nil => intro m hm; exact hm
    | cons e l ih =>
      intro m hm
      exact ih _ (nodup_keysOf_bucketAdd m (keyOf e) (entriesOf e) hm)
  exact aux emails [] (by simp [keysOf])

theorem pair_mem_eq_lookupB (m : List (String × List Email))
    (hnd : (keysOf m).Nodup) (k : String) (es : List Email)
    (h : (k, es) ∈ m) : es = lookupB m k := by
  induction m with
  | nil => cases h
  | cons p m ih =>
    obtain ⟨k2, es2⟩ := p
    rcases List.nodup_cons.1 hnd with ⟨hk2, hm⟩
    rcases List.mem_cons.1 h with heq | htail
    · obtain ⟨rfl, rfl⟩ := Prod.mk.injEq .. ▸ heq
      injection heq with h1 h2
      simp [lookupB]
    · have hkm : k ∈ keysOf m := List.mem_map_of_mem Prod.fst htail
      have hne : ¬(k = k2) := fun hc => hk2 (hc ▸ hkm)
      simp only [lookupB, hne, if_false]
      exact ih hm htail

theorem bucketAdd_snd_ne_nil (m : List (String × List Email)) (k1 : String)
    (es : List Email) (hm : ∀ p ∈ m, p.2 ≠ []) (hes : es ≠ []) :
    ∀ p ∈ bucketAdd m k1 es, p.2 ≠ [] := by
  induction m with
  | nil =>
    intro p hp
    simp [bucketAdd] at hp
    subst hp
    exact hes
  | cons q m ih =>
    obtain ⟨k2, es2⟩ := q
    intro p hp
    by_cases h12 : k1 = k2
    · subst h12
      simp only [bucketAdd, if_pos rfl] at hp
      rcases List.mem_cons.1 hp with rfl | hp
      · show es2 ++ es ≠ []
        intro hc
        exact hes (List.append_eq_nil.1 hc).2
      · exact hm p (List.mem_cons_of_mem _ hp)
    · simp only [bucketAdd, if_neg h12] at hp
      rcases List.mem_cons.1 hp with rfl | hp
      · exact hm (k2, es2) (by simp)
      · exact ih (fun q hq => hm q (List.mem_cons_of_mem _ hq)) p hp

theorem bucket_ne_nil (emails : List Email) :
    ∀ p ∈ buildMap emails, p.2 ≠ [] := by
  have aux : ∀ (l : List Email) (m : List (String × List Email)),
      (∀ p ∈ m, p.2 ≠ []) →
      ∀ p ∈ l.foldl (fun m e => bucketAdd m (keyOf e) (entriesOf e)) m,
        p.2 ≠ [] := by
    intro l
    induction l with
    | nil => intro m hm; exact hm
    | cons e l ih =>
      intro m hm
      exact ih _ (bucketAdd_snd_ne_nil m (keyOf e) (entriesOf e) hm
        (by simp [entriesOf]))
  exact aux emails [] (by simp)

theorem mem_threads_iff (emails : List Email) (t : EmailThread) :
    t ∈ threads emails ↔ ∃ p ∈ buildMap emails, t = mkThread p.1 p.2 := by
  rw [threads, mem_jsSort, List.mem_map]
  constructor
  · rintro ⟨p, hp, rfl⟩
    exact ⟨p, hp, rfl⟩
  · rintro ⟨p, hp, rfl⟩
    exact ⟨p, hp, rfl⟩

theorem mem_synthsGo (e : Email) (x : Email) :
    ∀ (rs : List EmailReply) (i : Nat), x ∈ synthsGo e i rs →
      ∃ r j, x = mkReplyEmail e r j := by
  intro rs
  induction rs with
  | nil => intro i h; cases h
  | cons r rs ih =>
    intro i h
    rcases List.mem_cons.1 h with rfl | h
    · exact ⟨r, i, rfl⟩
    · exact ih (i + 1) h

theorem realTid_entriesOf (e x : Email) (hx : x ∈ entriesOf e) :
    realTid x = realTid e := by
  rcases List.mem_cons.1 hx with rfl | hx
  · rfl
  · obtain ⟨r, j, rfl⟩ := mem_synthsGo e x e.responses 0 hx
    simp [realTid, mkReplyEmail]

theorem keyOf_of_realTid_some (e : Email) (r : String)
    (h : realTid e = some r) : keyOf e = r := by
  cases ht : e.thread_id with
  | none => simp [realTid, ht] at h
  | some t =>
    by_cases hc : (t != "" && jsTrim t != "") = true
    · simp only [realTid, ht, if_pos hc, Option.some.injEq] at h
      simp only [keyOf, ht, if_pos hc]
      exact h
    · simp [realTid, ht, hc] at h

theorem mem_entriesOf_num (e x : Email) (hx : x ∈ entriesOf e)
    (hnum : isNumId x.id = true) : x = e := by
  rcases List.mem_cons.1 hx with rfl | hx
  · rfl
  · obtain ⟨r, j, rfl⟩ := mem_synthsGo e x e.responses 0 hx
    simp [mkReplyEmail, isNumId] at hnum

theorem mem_keysOf_of_lookupB (m : List (String × List Email)) (k : String)
    (x : Email) (h : x ∈ lookupB m k) : k ∈ keysOf m := by
  induction m with
  | nil => simp [lookupB] at h
  | cons p m ih =>
    obtain ⟨k2, es2⟩ := p
    by_cases hk : k = k2
    · subst hk
      simp [keysOf]
    · simp only [lookupB, if_neg hk] at h
      simp only [keysOf, List.map_cons, List.mem_cons]
      exact Or.inr (ih h)

theorem lookupB_pair_mem (m : List (String × List Email)) (k : String)
    (h : k ∈ keysOf m) : (k, lookupB m k) ∈ m := by
  induction m with
  | nil => simp [keysOf] at h
  | cons p m ih =>
    obtain ⟨k2, es2⟩ := p
    by_cases hk : k = k2
    · subst hk
      simp [lookupB]
    · simp only [keysOf, List.map_cons, List.mem_cons] at h
      rcases h with h | h
      · exact absurd h hk
      · simp only [lookupB, if_neg hk]
        exact List.mem_cons_of_mem _ (ih h)

/-! ## Claim C3: thread assembly partitions the input -/

/-- C3 (counterexample): the synthetic key is the literal string
`single_<messageId>`, which can collide with a real `thread_id` of that
form: `eKeyA` has real thread id `single_mB`, `eKeyB` has no thread id and
synthetic key `single_mB`, and the assembler groups them into one thread. -/
theorem synthetic_key_collision_concrete :
    keyOf eKeyB = "single_mB" ∧ realTid eKeyA = some "single_mB" ∧
    eKeyB.thread_id = none ∧ (threads [eKeyA, eKeyB]).length = 1 := by decide

/-- C3 (amended): each email is grouped under its `thread_id` when present
and non-blank, otherwise under the synthetic key `single_<messageId>` (which
is deterministic but may coincide with a real thread id of that literal
form).  For inputs whose emails carry real (numeric) ids, every input email
appears in exactly one output thread timeline, and no timeline mixes entries
carrying two distinct real thread ids. -/
theorem threads_partition_input (emails : List Email)
    (hids : ∀ e ∈ emails, isNumId e.id = true) :
    (∀ e ∈ emails, ∃! t : EmailThread, t ∈ threads emails ∧ e ∈ t.emails) ∧
    (∀ t ∈ threads emails, ∀ x ∈ t.emails, ∀ y ∈ t.emails,
      ∀ rx ry : String, realTid x = some rx → realTid y = some ry →
        rx = ry) := by
  have hnd := nodup_keysOf_buildMap emails
  have hbucket : ∀ p : String × List Email, p ∈ buildMap emails →
      p.2 = lookupB (buildMap emails) p.1 := by
    intro p hp
    exact pair_mem_eq_lookupB (buildMap emails) hnd p.1 p.2 hp
  have hx_in_bucket : ∀ t ∈ threads emails, ∀ x ∈ t.emails,
      x ∈ lookupB (buildMap emails) t.threadId := by
    intro t ht x hx
    obtain ⟨p, hp, rfl⟩ := (mem_threads_iff emails t).1 ht
    have hx2 : x ∈ p.2 := (mem_jsSort emailCmp x p.2).1 hx
    rw [hbucket p hp] at hx2
    exact hx2
  constructor
  · intro e he
    have hein : e ∈ lookupB (buildMap emails) (keyOf e) :=
      (mem_bucket_iff emails (keyOf e) e).2 ⟨e, he, rfl, by simp [entriesOf]⟩
    have hkmem : keyOf e ∈ keysOf (buildMap emails) :=
      mem_keysOf_of_lookupB (buildMap emails) (keyOf e) e hein
    refine ⟨mkThread (keyOf e) (lookupB (buildMap emails) (keyOf e)),
      ⟨?_, ?_⟩, ?_⟩
    · exact (mem_threads_iff emails _).2
        ⟨(keyOf e, lookupB (buildMap emails) (keyOf e)),
          lookupB_pair_mem (buildMap emails) (keyOf e) hkmem, rfl⟩
    · show e ∈ jsSort emailCmp (lookupB (buildMap emails) (keyOf e))
      exact (mem_jsSort emailCmp e _).2 hein
    · rintro t2 ⟨ht2, he2⟩
      obtain ⟨p, hp, rfl⟩ := (mem_threads_iff emails t2).1 ht2
      have he_in : e ∈ lookupB (buildMap emails) p.1 := by
        have := (mem_jsSort emailCmp e p.2).1 he2
        rwa [hbucket p hp] at this
      obtain ⟨e2, he2m, hkey2, hent⟩ :=
        (mem_bucket_iff emails p.1 e).1 he_in
      have heq : e = e2 := mem_entriesOf_num e2 e hent (hids e he)
      subst heq
      have hk1 : p.1 = keyOf e := hkey2.symm
      have hfull : p = (keyOf e, lookupB (buildMap emails) (keyOf e)) := by
        have h2 := hbucket p hp
        rw [hk1] at h2
        exact Prod.ext hk1 h2
      rw [hfull]
  · intro t ht x hx y hy rx ry hrx hry
    obtain ⟨ex, hexm, hkeyx, hentx⟩ :=
      (mem_bucket_iff emails t.threadId x).1 (hx_in_bucket t ht x hx)
    obtain ⟨ey, heym, hkeyy, henty⟩ :=
      (mem_bucket_iff emails t.threadId y).1 (hx_in_bucket t ht y hy)
    have hrx2 : realTid ex = some rx := (realTid_entriesOf ex x hentx) ▸ hrx
    have hry2 : realTid ey = some ry := (realTid_entriesOf ey y henty) ▸ hry
    have h1 : keyOf ex = rx := keyOf_of_realTid_some ex rx hrx2
    have h2 : keyOf ey = ry := keyOf_of_realTid_some ey ry hry2
    rw [hkeyx] at h1
    rw [hkeyy] at h2
    rw [← h1, ← h2]

/-- Witness for C3 on the three-email thread of the spec scenario. -/
theorem threads_partition_input_witness :
    ∃ t : EmailThread,
      (t ∈ threads [eS1, eS2, eS3] ∧ eS1 ∈ t.emails) ∧
      ∀ t2 : EmailThread,
        (t2 ∈ threads [eS1, eS2, eS3] ∧ eS1 ∈ t2.emails) → t2 = t :=
  (threads_partition_input [eS1, eS2, eS3] (by decide)).1 eS1 (by decide)

/-! ## Decimal strings and synthetic reply identifiers -/

theorem digitChar_ne_underscore (a : Nat) (h : a < 10) :
    Nat.digitChar a ≠ '_' := by
  interval_cases a <;> decide

theorem digitChar_inj_lt (a b : Nat) (ha : a < 10) (hb : b < 10)
    (h : Nat.digitChar a = Nat.digitChar b) : a = b := by
  interval_cases a <;> interval_cases b <;> first | rfl | (exfalso; exact absurd h (by decide))

theorem natCharsGo_no_underscore :
    ∀ (f n : Nat), ('_' : Char) ∉ natCharsGo f n := by
  intro f
  induction f with
  | zero => intro n; simp [natCharsGo]
  | succ f ih =>
    intro n
    by_cases h : n < 10
    · simp only [natCharsGo, if_pos h, List.mem_singleton]
      exact fun hc => digitChar_ne_underscore n h hc.symm
    · simp only [natCharsGo, if_neg h, List.mem_append, List.mem_singleton]
      rintro (hc | hc)
      · exact ih (n / 10) hc
      · exact digitChar_ne_underscore (n % 10) (Nat.mod_lt n (by omega)) hc.symm

theorem natChars_no_underscore (n : Nat) : ('_' : Char) ∉ natChars n :=
  natCharsGo_no_underscore (n + 1) n

theorem natCharsGo_ne_nil (f n : Nat) : natCharsGo (f + 1) n ≠ [] := by
  by_cases h : n < 10 <;> simp [natCharsGo, h]

theorem natCharsGo_inj :
    ∀ (f1 f2 m n : Nat), m < f1 → n < f2 →
      natCharsGo f1 m = natCharsGo f2 n → m = n := by
  intro f1
  induction f1 with
  | zero => intro f2 m n hm; omega
  | succ f ih =>
    intro f2 m n hm hn heq
    cases f2 with
    | zero => omega
    | succ g =>
      by_cases h1 : m < 10 <;> by_cases h2 : n < 10
      · simp only [natCharsGo, if_pos h1, if_pos h2, List.cons.injEq] at heq
        exact digitChar_inj_lt m n h1 h2 heq.1
      · exfalso
        simp only [natCharsGo, if_pos h1, if_neg h2] at heq
        have hne : natCharsGo g (n / 10) ≠ [] := by
          cases g with
          | zero => omega
          | succ g2 => exact natCharsGo_ne_nil g2 (n / 10)
        have hlen := congrArg List.length heq
        simp only [List.length_singleton, List.length_append] at hlen
        exact hne (List.length_eq_zero.1 (by omega))
      · exfalso
        simp only [natCharsGo, if_neg h1, if_pos h2] at heq
        have hne : natCharsGo f (m / 10) ≠ [] := by
          cases f with
          | zero => omega
          | succ f2 => exact natCharsGo_ne_nil f2 (m / 10)
        have hlen := congrArg List.length heq
        simp only [List.length_singleton, List.length_append] at hlen
        exact hne (List.length_eq_zero.1 (by omega))
      · simp only [natCharsGo, if_neg h1, if_neg h2] at heq
        obtain ⟨hpre, hsuf⟩ := List.append_inj' heq (by simp)
        have hmod : m % 10 = n % 10 := by
          have := List.cons.injEq .. ▸ hsuf
          injection hsuf with hd _
          exact digitChar_inj_lt _ _ (Nat.mod_lt m (by omega))
            (Nat.mod_lt n (by omega)) hd
        have hdivm : m / 10 < f := by
          have hlt : m / 10 < m := Nat.div_lt_self (by omega) (by omega)
          omega
        have hdivn : n / 10 < g := by
          have hlt : n / 10 < n := Nat.div_lt_self (by omega) (by omega)
          omega
        have hdiv : m / 10 = n / 10 := ih g (m / 10) (n / 10) hdivm hdivn hpre
        omega

theorem natChars_inj (m n : Nat) (h : natChars m = natChars n) : m = n :=
  natCharsGo_inj (m + 1) (n + 1) m n (by omega) (by omega) h

theorem underscore_delim (a : List Char) :
    ∀ (b x y : List Char), ('_' : Char) ∉ a → ('_' : Char) ∉ b →
      a ++ '_' :: x = b ++ '_' :: y → a = b ∧ x = y := by
  induction a with
  | nil =>
    intro b x y _ hb h
    cases b with
    | nil => simpa using h
    | cons c b2 =>
      exfalso
      simp only [List.nil_append, List.cons_append, List.cons.injEq] at h
      exact hb (h.1 ▸ List.mem_cons_self _ _)
  | cons c a2 ih =>
    intro b x y ha hb h
    cases b with
    | nil =>
      exfalso
      simp only [List.cons_append, List.nil_append, List.cons.injEq] at h
      exact ha (h.1 ▸ List.mem_cons_self _ _)
    | cons d b2 =>
      simp only [List.cons_append, List.cons.injEq] at h
      obtain ⟨rfl, h2⟩ := h
      have ha2 : ('_' : Char) ∉ a2 := fun hc => ha (List.mem_cons_of_mem _ hc)
      have hb2 : ('_' : Char) ∉ b2 := fun hc => hb (List.mem_cons_of_mem _ hc)
      obtain ⟨rfl, rfl⟩ := ih b2 x y ha2 hb2 h2
      exact ⟨rfl, rfl⟩

theorem underscore_delim_last (x y a b : List Char)
    (ha : ('_' : Char) ∉ a) (hb : ('_' : Char) ∉ b)
    (h : x ++ '_' :: a = y ++ '_' :: b) : x = y ∧ a = b := by
  have hrev : a.reverse ++ '_' :: x.reverse = b.reverse ++ '_' :: y.reverse := by
    have := congrArg List.reverse h
    simpa [List.reverse_append] using this
  have ha2 : ('_' : Char) ∉ a.reverse := by simpa using ha
  have hb2 : ('_' : Char) ∉ b.reverse := by simpa using hb
  obtain ⟨h1, h2⟩ := underscore_delim a.reverse b.reverse x.reverse y.reverse ha2 hb2 hrev
  constructor
  · have := congrArg List.reverse h2
    simpa using this
  · have := congrArg List.reverse h1
    simpa using this

theorem str_data_append (s t : String) : (s ++ t).data = s.data ++ t.data := by
  cases s
  cases t
  rfl

theorem mkReplyId_inj (p1 p2 : Nat) (r1 r2 : String) (i1 i2 : Nat)
    (h : mkReplyId (.num p1) r1 i1 = mkReplyId (.num p2) r2 i2) :
    p1 = p2 ∧ r1 = r2 ∧ i1 = i2 := by
  have hdata := congrArg String.data h
  simp only [mkReplyId, eidString, natString, str_data_append] at hdata
  have hdata2 :
      "reply_".data ++ (natChars p1 ++ '_' :: (r1.data ++ '_' :: natChars i1)) =
      "reply_".data ++ (natChars p2 ++ '_' :: (r2.data ++ '_' :: natChars i2)) := by
    simpa [List.append_assoc, List.singleton_append] using hdata
  have hcore := List.append_cancel_left hdata2
  obtain ⟨hp, hrest⟩ := underscore_delim (natChars p1)
    (natChars p2) (r1.data ++ '_' :: natChars i1) (r2.data ++ '_' :: natChars i2)
    (natChars_no_underscore p1) (natChars_no_underscore p2) hcore
  obtain ⟨hr, hi⟩ := underscore_delim_last r1.data r2.data
    (natChars i1) (natChars i2)
    (natChars_no_underscore i1) (natChars_no_underscore i2) hrest
  refine ⟨natChars_inj p1 p2 hp, ?_, natChars_inj i1 i2 hi⟩
  cases r1
  cases r2
  exact congrArg String.mk hr

/-! ## Shared facts about assembled threads -/

theorem thread_emails_eq (emails : List Email) (t : EmailThread)
    (ht : t ∈ threads emails) :
    t.emails = jsSort emailCmp (lookupB (buildMap emails) t.threadId) := by
  obtain ⟨p, hp, rfl⟩ := (mem_threads_iff emails t).1 ht
  have h2 := pair_mem_eq_lookupB (buildMap emails)
    (nodup_keysOf_buildMap emails) p.1 p.2 hp
  show jsSort emailCmp p.2 = jsSort emailCmp (lookupB (buildMap emails) p.1)
  rw [← h2]

theorem thread_bucket_ne_nil (emails : List Email) (t : EmailThread)
    (ht : t ∈ threads emails) :
    lookupB (buildMap emails) t.threadId ≠ [] := by
  obtain ⟨p, hp, rfl⟩ := (mem_threads_iff emails t).1 ht
  have h2 := pair_mem_eq_lookupB (buildMap emails)
    (nodup_keysOf_buildMap emails) p.1 p.2 hp
  have h3 := bucket_ne_nil emails p hp
  show lookupB (buildMap emails) p.1 ≠ []
  rw [← h2]
  exact h3

theorem thread_exists_for_mem (emails : List Email) (e : Email)
    (he : e ∈ emails) : ∃ t ∈ threads emails, e ∈ t.emails := by
  have hein : e ∈ lookupB (buildMap emails) (keyOf e) :=
    (mem_bucket_iff emails (keyOf e) e).2 ⟨e, he, rfl, by simp [entriesOf]⟩
  have hkmem : keyOf e ∈ keysOf (buildMap emails) :=
    mem_keysOf_of_lookupB (buildMap emails) (keyOf e) e hein
  refine ⟨mkThread (keyOf e) (lookupB (buildMap emails) (keyOf e)), ?_, ?_⟩
  · exact (mem_threads_iff emails _).2
      ⟨(keyOf e, lookupB (buildMap emails) (keyOf e)),
        lookupB_pair_mem (buildMap emails) (keyOf e) hkmem, rfl⟩
  · show e ∈ jsSort emailCmp (lookupB (buildMap emails) (keyOf e))
    exact (mem_jsSort emailCmp e _).2 hein

theorem headD_mem_of_ne_nil {α : Type} (l : List α) (d : α) (h : l ≠ []) :
    l.headD d ∈ l := by
  cases l with
  | nil => exact absurd rfl h
  | cons x xs => simp

theorem synthsGo_length (e : Email) :
    ∀ (rs : List EmailReply) (i : Nat), (synthsGo e i rs).length = rs.length := by
  intro rs
  induction rs with
  | nil => intro i; rfl
  | cons r rs ih => intro i; simp [synthsGo, ih]

theorem mem_synthsGo_get (e x : Email) :
    ∀ (rs : List EmailReply) (i0 : Nat), x ∈ synthsGo e i0 rs →
      ∃ j r, rs.get? j = some r ∧ x = mkReplyEmail e r (i0 + j) := by
  intro rs
  induction rs with
  | nil => intro i0 h; cases h
  | cons r rs ih =>
    intro i0 h
    rcases List.mem_cons.1 h with rfl | h
    · exact ⟨0, r, rfl, by simp⟩
    · obtain ⟨j, r2, hget, hx⟩ := ih (i0 + 1) h
      refine ⟨j + 1, r2, by simpa using hget, ?_⟩
      rw [hx]
      congr 1
      omega

theorem synthsGo_get_mem (e : Email) :
    ∀ (rs : List EmailReply) (i0 j : Nat) (r : EmailReply),
      rs.get? j = some r → mkReplyEmail e r (i0 + j) ∈ synthsGo e i0 rs := by
  intro rs
  induction rs with
  | nil => intro i0 j r h; cases h
  | cons r0 rs ih =>
    intro i0 j r h
    cases j with
    | zero =>
      injection h with h
      subst h
      simp [synthsGo]
    | succ j =>
      have := ih (i0 + 1) j r (by simpa using h)
      have harith : i0 + 1 + j = i0 + (j + 1) := by omega
      rw [harith] at this
      exact List.mem_cons_of_mem _ this

theorem synthsGo_filter_parent (e : Email) :
    ∀ (rs : List EmailReply) (i : Nat),
      (synthsGo e i rs).filter (fun x => x.originalEmailId == some e.id) =
        synthsGo e i rs := by
  intro rs
  induction rs with
  | nil => intro i; rfl
  | cons r rs ih =>
    intro i
    simp [synthsGo, List.filter_cons, mkReplyEmail, ih]

theorem synthsGo_filter_other (a e : Email) (hne : a.id ≠ e.id) :
    ∀ (rs : List EmailReply) (i : Nat),
      (synthsGo a i rs).filter (fun x => x.originalEmailId == some e.id) = [] := by
  intro rs
  induction rs with
  | nil => intro i; rfl
  | cons r rs ih =>
    intro i
    simp [synthsGo, List.filter_cons, mkReplyEmail, hne, ih]

theorem entriesOf_filter_self (e : Email) (hin : e.originalEmailId = none) :
    ((entriesOf e).filter fun x => x.originalEmailId == some e.id).length =
      e.responses.length := by
  have hcond : ((none : Option EId) == some e.id) = false := rfl
  simp only [entriesOf, List.filter_cons, hin, hcond, Bool.false_eq_true,
    if_false]
  rw [synthsGo_filter_parent e e.responses 0, synthsGo_length]

theorem entriesOf_filter_other (a e : Email) (hin : a.originalEmailId = none)
    (hne : a.id ≠ e.id) :
    (entriesOf a).filter (fun x => x.originalEmailId == some e.id) = [] := by
  have hcond : ((none : Option EId) == some e.id) = false := rfl
  simp only [entriesOf, List.filter_cons, hin, hcond, Bool.false_eq_true,
    if_false]
  rw [synthsGo_filter_other a e hne a.responses 0]

theorem flatMap_filter_length (l : List Email) (p : Email → Bool) :
    ((l.flatMap entriesOf).filter p).length =
      (l.map fun a => ((entriesOf a).filter p).length).sum := by
  induction l with
  | nil => rfl
  | cons a l ih => simp [List.filter_append, ih]

theorem sum_counts_for (e : Email) :
    ∀ (L : List Email), L.Pairwise (fun a b => a.id ≠ b.id) →
      (∀ a ∈ L, a.originalEmailId = none) → e ∈ L →
      (L.map fun a =>
        ((entriesOf a).filter fun x => x.originalEmailId == some e.id).length).sum
        = e.responses.length := by
  intro L
  induction L with
  | nil => intro _ _ he; cases he
  | cons a L ih =>
    intro hpw hin he
    rcases List.pairwise_cons.1 hpw with ⟨ha, hpw2⟩
    rcases List.mem_cons.1 he with rfl | he
    · have hzero : ∀ b ∈ L,
          ((entriesOf b).filter fun x => x.originalEmailId == some e.id).length = 0 := by
        intro b hb
        rw [entriesOf_filter_other b e (hin b (List.mem_cons_of_mem _ hb))
          (fun hc => ha b hb hc.symm)]
        rfl
      have hsum : (L.map fun b =>
          ((entriesOf b).filter fun x => x.originalEmailId == some e.id).length).sum = 0 := by
        apply List.sum_eq_zero
        intro n hn
        obtain ⟨b, hb, rfl⟩ := List.mem_map.1 hn
        exact hzero b hb
      simp only [List.map_cons, List.sum_cons, hsum,
        entriesOf_filter_self e (hin e (List.mem_cons_self e L)), Nat.add_zero]
    · have hhead :
          ((entriesOf a).filter fun x => x.originalEmailId == some e.id).length = 0 := by
        rw [entriesOf_filter_other a e (hin a (List.mem_cons_self a L)) (ha e he)]
        rfl
      simp only [List.map_cons, List.sum_cons, hhead,
        ih hpw2 (fun b hb => hin b (List.mem_cons_of_mem _ hb)) he, Nat.zero_add]

theorem pairwise_id_inj :
    ∀ (L : List Email), L.Pairwise (fun a b => a.id ≠ b.id) →
      ∀ a ∈ L, ∀ b ∈ L, a.id = b.id → a = b := by
  intro L
  induction L with
  | nil => intro _ a ha; cases ha
  | cons x L ih =>
    intro hpw a ha b hb heq
    rcases List.pairwise_cons.1 hpw with ⟨hx, hpw2⟩
    rcases List.mem_cons.1 ha with ha1 | ha2
    · rcases List.mem_cons.1 hb with hb1 | hb2
      · rw [ha1, hb1]
      · exfalso
        exact hx b hb2 (by rw [← ha1]; exact heq)
    · rcases List.mem_cons.1 hb with hb1 | hb2
      · exfalso
        exact hx a ha2 (by rw [← hb1]; exact heq.symm)
      · exact ih hpw2 a ha2 b hb2 heq

/-! ## Claim C9: assembly never mutates its input -/

/-- C9 (confirmed, read shallowly): thread assembly is a pure function whose
output contains every input Email record unchanged (the record itself, with
all fields including `responses`, is an entry of its thread timeline), and
every other timeline entry is a freshly built synthetic reply record
(`mkReplyEmail`), never one of the inputs. -/
theorem assembly_preserves_inputs (emails : List Email)
    (hin : ∀ e ∈ emails, e.originalEmailId = none) :
    (∀ e ∈ emails, ∃ t ∈ threads emails, e ∈ t.emails) ∧
    (∀ t ∈ threads emails, ∀ x ∈ t.emails,
      x ∈ emails ∨
        (x ∉ emails ∧ ∃ e ∈ emails, ∃ i r, e.responses.get? i = some r ∧
          x = mkReplyEmail e r i ∧ x.originalEmailId = some e.id)) := by
  constructor
  · intro e he
    exact thread_exists_for_mem emails e he
  · intro t ht x hx
    rw [thread_emails_eq emails t ht] at hx
    have hxb := (mem_jsSort emailCmp x _).1 hx
    obtain ⟨e, he, hkey, hent⟩ := (mem_bucket_iff emails t.threadId x).1 hxb
    rcases List.mem_cons.1 hent with rfl | hsyn
    · exact Or.inl he
    · obtain ⟨j, r, hget, hxeq⟩ := mem_synthsGo_get e x e.responses 0 hsyn
      rw [Nat.zero_add] at hxeq
      refine Or.inr ⟨?_, e, he, j, r, hget, hxeq, by simp [hxeq, mkReplyEmail]⟩
      intro hxin
      have h0 := hin x hxin
      rw [hxeq] at h0
      simp [mkReplyEmail] at h0

/-- Witness for C9 on an email with two nested replies. -/
theorem assembly_preserves_inputs_witness :
    ∃ t ∈ threads [eResp], eResp ∈ t.emails :=
  (assembly_preserves_inputs [eResp] (by decide)).1 eResp (by decide)

/-! ## Claim C8: missing or unparseable timestamps -/

/-- C8 (counterexample): an entry with an unparseable timestamp is not
treated as the earliest value and does not sort first (nor last) within its
thread: in thread `t8` the entry `eBad` (timestamp `NaN`) stays in its
insertion position, between the two parseable entries. -/
theorem unparseable_not_sorted_first :
    eBad.received_at = none ∧
    ((threads [eT1, eBad, eT2]).headD (mkThread "" [])).emails =
      [eT1, eBad, eT2] ∧
    ((threads [eT1, eBad, eT2]).headD (mkThread "" [])).emails.headD emptyEmail
      ≠ eBad ∧
    ((threads [eT1, eBad, eT2]).headD (mkThread "" [])).emails.getLast?
      ≠ some eBad := by decide

/-- C8 (amended): an entry with a missing/unparseable timestamp makes every
comparator call involving it return `NaN`, which the sort treats as a tie, so
the entry keeps its stability-determined (insertion-order) position rather
than sorting first; the computation is total and never drops an email, so it
never crashes on such input. -/
theorem unparseable_timestamp_tie (x : Email) (l : List Email)
    (emails : List Email) (hx : x.received_at = none) :
    (∀ y : Email, emailCmp x y = 0 ∧ emailCmp y x = 0) ∧
    insertSorted emailCmp x l = l ++ [x] ∧
    (∀ e ∈ emails, ∃ t ∈ threads emails, e ∈ t.emails) := by
  have hcmp : ∀ y : Email, emailCmp x y = 0 ∧ emailCmp y x = 0 := by
    intro y
    constructor
    · show nanSub y.received_at x.received_at = 0
      rw [hx]
      cases y.received_at <;> rfl
    · show nanSub x.received_at y.received_at = 0
      rw [hx]
      rfl
  refine ⟨hcmp, ?_, ?_⟩
  · induction l with
    | nil => rfl
    | cons z zs ih =>
      have hz := (hcmp z).1
      simp [insertSorted, hz, ih]
  · intro e he
    exact thread_exists_for_mem emails e he

/-- Witness for C8 at the concrete unparseable entry `eBad`. -/
theorem unparseable_timestamp_tie_witness :
    insertSorted emailCmp eBad [eT1] = [eT1] ++ [eBad] ∧
    ∃ t ∈ threads [eT1, eBad, eT2], eBad ∈ t.emails := by
  have h := unparseable_timestamp_tie eBad [eT1] [eT1, eBad, eT2] (by decide)
  exact ⟨h.2.1, h.2.2 eBad (by decide)⟩

/-! ## Claim C4: latest and first entries are extremal -/

/-- C4 (confirmed): for every assembled thread whose entries all carry
parseable timestamps, `latestEmail` is an entry of the timeline whose
timestamp is greater than or equal to that of every other entry, and
`firstEmail` an entry whose timestamp is less than or equal to that of every
other entry,
independently of the (descending) display order of the timeline. -/
theorem thread_latest_first_extremal (emails : List Email) (t : EmailThread)
    (ht : t ∈ threads emails)
    (hparse : ∀ x ∈ t.emails, x.received_at.isSome = true) :
    t.latestEmail ∈ t.emails ∧ t.firstEmail ∈ t.emails ∧
    ∀ x ∈ t.emails, ∀ tx tl tf : Int,
      x.received_at = some tx → t.latestEmail.received_at = some tl →
      t.firstEmail.received_at = some tf → tf ≤ tx ∧ tx ≤ tl := by
  obtain ⟨p, hp, rfl⟩ := (mem_threads_iff emails t).1 ht
  have hparse2 : ∀ x ∈ p.2, x.received_at.isSome = true := by
    intro x hxp
    exact hparse x ((mem_jsSort emailCmp x p.2).2 hxp)
  have hc : ∀ x ∈ p.2, ∀ y ∈ p.2, emailCmp x y =
      y.received_at.getD 0 - x.received_at.getD 0 := by
    intro x hx2 y hy2
    obtain ⟨tx, hxe⟩ := Option.isSome_iff_exists.1 (hparse2 x hx2)
    obtain ⟨ty, hye⟩ := Option.isSome_iff_exists.1 (hparse2 y hy2)
    simp [emailCmp, nanSub, hxe, hye]
  have hpw := jsSort_pairwise emailCmp (fun a => a.received_at.getD 0) p.2 hc
  have hne : jsSort emailCmp p.2 ≠ [] := by
    intro hc2
    apply bucket_ne_nil emails p hp
    have hlen := (jsSort_perm emailCmp p.2).length_eq
    rw [hc2] at hlen
    exact List.length_eq_zero.1 hlen.symm
  have hlat : (mkThread p.1 p.2).latestEmail =
      (jsSort emailCmp p.2).headD emptyEmail := rfl
  have hfir : (mkThread p.1 p.2).firstEmail =
      (jsSort emailCmp p.2).reverse.headD emptyEmail := rfl
  have hner : (jsSort emailCmp p.2).reverse ≠ [] := by simpa using hne
  refine ⟨?_, ?_, ?_⟩
  · show (jsSort emailCmp p.2).headD emptyEmail ∈ jsSort emailCmp p.2
    exact headD_mem_of_ne_nil _ _ hne
  · show (jsSort emailCmp p.2).reverse.headD emptyEmail ∈ jsSort emailCmp p.2
    exact List.mem_reverse.1 (headD_mem_of_ne_nil _ emptyEmail hner)
  · intro x hxL tx tl tf hxe hle hfe
    rw [hlat] at hle
    rw [hfir] at hfe
    have hmax := pairwise_headD
      (fun a b => b.received_at.getD 0 ≤ a.received_at.getD 0)
      (jsSort emailCmp p.2) emptyEmail hpw x hxL
    have hxle : x.received_at.getD 0 ≤
        ((jsSort emailCmp p.2).headD emptyEmail).received_at.getD 0 := by
      rcases hmax with heq | hle2
      · rw [heq]
      · exact hle2
    have hpwr : (jsSort emailCmp p.2).reverse.Pairwise
        (fun a b => a.received_at.getD 0 ≤ b.received_at.getD 0) :=
      List.pairwise_reverse.2 hpw
    have hmin := pairwise_headD
      (fun a b => a.received_at.getD 0 ≤ b.received_at.getD 0)
      (jsSort emailCmp p.2).reverse emptyEmail hpwr x (List.mem_reverse.2 hxL)
    have hfle : ((jsSort emailCmp p.2).reverse.headD emptyEmail).received_at.getD 0 ≤
        x.received_at.getD 0 := by
      rcases hmin with heq | h2
      · rw [heq]
      · exact h2
    constructor
    · rw [hxe, hfe] at hfle
      simpa using hfle
    · rw [hxe, hle] at hxle
      simpa using hxle

/-- Witness for C4 on the spec scenario thread (timestamps 100, 105, 50). -/
theorem thread_latest_first_extremal_witness :
    ((threads [eS1, eS2, eS3]).headD (mkThread "" [])).latestEmail ∈
      ((threads [eS1, eS2, eS3]).headD (mkThread "" [])).emails ∧
    (50 : Int) ≤ 100 ∧ (100 : Int) ≤ 105 := by
  have h := thread_latest_first_extremal [eS1, eS2, eS3]
    ((threads [eS1, eS2, eS3]).headD (mkThread "" [])) (by decide) (by decide)
  exact ⟨h.1, h.2.2 eS1 (by decide) 100 105 50 (by decide) (by decide)
    (by decide)⟩

/-! ## Claim C5: expansion of nested replies -/

/-- C5 (counterexample): with two distinct input emails sharing id `0`
(duplicates by id are allowed by the assembler input contract), each with one
reply of id `0`, the two synthetic entries receive the same identifier
`reply_0_0_0`, so synthetic identifiers are not unique; likewise the thread
timeline contains two entries back-referencing id `0` although each email has
only one reply. -/
theorem duplicate_ids_break_reply_uniqueness :
    dupA ≠ dupB ∧ dupA.id = dupB.id ∧ dupA.responses.length = 1 ∧
    ((threads [dupA, dupB]).headD (mkThread "" [])).emails.map (fun x => x.id) =
      [EId.str "reply_0_0_0", EId.str "reply_0_0_0", EId.num 0, EId.num 0] ∧
    (((threads [dupA, dupB]).headD (mkThread "" [])).emails.filter
        fun x => x.originalEmailId == some (EId.num 0)).length = 2 := by decide

/-- C5 (amended): provided the input emails carry real numeric, pairwise
distinct ids (and no stray `__originalEmailId` marker), the timeline of an
thread of an email contains exactly `N = |responses|` synthetic entries
back-referencing that email; the `i`-th reply yields an entry with id
`reply_<emailId>_<replyId>_<i>`, the reply field `body` as content and
its `sent_at` as timestamp; and synthetic identifiers are pairwise distinct and
distinct from every real email id in the input. -/
theorem reply_expansion_correct (emails : List Email)
    (hids : ∀ e ∈ emails, isNumId e.id = true)
    (hnodup : emails.Pairwise fun a b => a.id ≠ b.id)
    (hin : ∀ e ∈ emails, e.originalEmailId = none)
    (e : Email) (he : e ∈ emails) (t : EmailThread) (ht : t ∈ threads emails)
    (hkey : t.threadId = keyOf e) :
    (t.emails.filter fun x => x.originalEmailId == some e.id).length =
      e.responses.length ∧
    (∀ i r, e.responses.get? i = some r →
      ∃ x ∈ t.emails, x.id = EId.str (mkReplyId e.id r.id i) ∧
        x.body = some r.body ∧ x.received_at = r.sent_at ∧
        x.originalEmailId = some e.id) ∧
    (∀ x ∈ t.emails, ∀ y ∈ t.emails, isNumId x.id = false →
      isNumId y.id = false → x.id = y.id → x = y) ∧
    (∀ x ∈ t.emails, isNumId x.id = false → ∀ e2 ∈ emails, x.id ≠ e2.id) := by
  have hte := thread_emails_eq emails t ht
  rw [hkey] at hte
  have hsyn : ∀ x ∈ t.emails, isNumId x.id = false →
      ∃ ex jx rx, ex ∈ emails ∧ keyOf ex = keyOf e ∧
        ex.responses.get? jx = some rx ∧ x = mkReplyEmail ex rx jx := by
    intro x hxm hxs
    rw [hte] at hxm
    obtain ⟨ex, hexm, hexk, hentx⟩ := (mem_bucket_iff emails (keyOf e) x).1
      ((mem_jsSort emailCmp x _).1 hxm)
    rcases List.mem_cons.1 hentx with rfl | hsx
    · rw [hids x hexm] at hxs
      cases hxs
    · obtain ⟨jx, rx, hgetx, hxeq⟩ := mem_synthsGo_get ex x ex.responses 0 hsx
      rw [Nat.zero_add] at hxeq
      exact ⟨ex, jx, rx, hexm, hexk, hgetx, hxeq⟩
  refine ⟨?_, ?_, ?_, ?_⟩
  · rw [hte,
      ((jsSort_perm emailCmp (lookupB (buildMap emails) (keyOf e))).filter
        (fun x => x.originalEmailId == some e.id)).length_eq,
      lookupB_buildMap, flatMap_filter_length]
    refine sum_counts_for e (emails.filter fun e2 => keyOf e2 == keyOf e)
      (List.Pairwise.filter _ hnodup)
      (fun a ha => hin a (List.mem_filter.1 ha).1) ?_
    exact List.mem_filter.2 ⟨he, by simp⟩
  · intro i r hget
    have hmem : mkReplyEmail e r i ∈ synthsGo e 0 e.responses := by
      have := synthsGo_get_mem e e.responses 0 i r hget
      simpa using this
    have hbucket : mkReplyEmail e r i ∈ lookupB (buildMap emails) (keyOf e) :=
      (mem_bucket_iff emails (keyOf e) _).2
        ⟨e, he, rfl, List.mem_cons_of_mem _ hmem⟩
    refine ⟨mkReplyEmail e r i, ?_, rfl, rfl, rfl, rfl⟩
    rw [hte]
    exact (mem_jsSort emailCmp _ _).2 hbucket
  · intro x hxm y hym hxs hys heq
    obtain ⟨ex, jx, rx, hexm, _, hgetx, hxeq⟩ := hsyn x hxm hxs
    obtain ⟨ey, jy, ry, heym, _, hgety, hyeq⟩ := hsyn y hym hys
    have hpx : ∃ px, ex.id = EId.num px := by
      have := hids ex hexm
      cases hex : ex.id with
      | num n => exact ⟨n, rfl⟩
      | str s => rw [hex] at this; cases this
    have hpy : ∃ py, ey.id = EId.num py := by
      have := hids ey heym
      cases hey : ey.id with
      | num n => exact ⟨n, rfl⟩
      | str s => rw [hey] at this; cases this
    obtain ⟨px, hex⟩ := hpx
    obtain ⟨py, hey⟩ := hpy
    have hid : EId.str (mkReplyId ex.id rx.id jx) =
        EId.str (mkReplyId ey.id ry.id jy) := by
      rw [← show x.id = EId.str (mkReplyId ex.id rx.id jx) by rw [hxeq]; rfl,
        ← show y.id = EId.str (mkReplyId ey.id ry.id jy) by rw [hyeq]; rfl]
      exact heq
    have hstr : mkReplyId ex.id rx.id jx = mkReplyId ey.id ry.id jy := by
      injection hid
    rw [hex, hey] at hstr
    obtain ⟨hp, hr, hj⟩ := mkReplyId_inj px py rx.id ry.id jx jy hstr
    have hexy : ex = ey := by
      refine pairwise_id_inj emails hnodup ex hexm ey heym ?_
      rw [hex, hey, hp]
    subst hexy
    subst hj
    have hrr : rx = ry := by
      rw [hgetx] at hgety
      injection hgety
    rw [hxeq, hyeq, hrr]
  · intro x hxm hxs e2 he2 heq
    have h2 := hids e2 he2
    rw [← heq] at h2
    rw [hxs] at h2
    cases h2

/-- Witness for C5 on an email with two replies. -/
theorem reply_expansion_correct_witness :
    (((threads [eResp]).headD (mkThread "" [])).emails.filter
        fun x => x.originalEmailId == some eResp.id).length =
      eResp.responses.length :=
  (reply_expansion_correct [eResp] (by decide) (by decide) (by decide)
    eResp (by decide) ((threads [eResp]).headD (mkThread "" [])) (by decide)
    (by decide)).1
